import Mathlib

/-!
# Verification of the token-estimator utility

A shallow embedding, in Lean 4, of `src/token-estimator.py`: a tool that
estimates how many LLM tokens a directory tree of source files would consume.

Modelling conventions:
* Python floats are IEEE binary64.  On the table path of `estimate_tokens`
  both float operations are modelled faithfully: `roundNE` is round to
  nearest, ties to even, at 53 significant bits (the normal range of
  binary64, which every value arising here inhabits), and the quotient
  `char_count / 80` and the product `lines * multiplier` are each rounded.
  The intermediate rounding is observable at ordinary inputs: at 656
  characters of `.py` the quotient rounds below `8.2` and the program
  returns 122 where exact arithmetic would give 123.  `int(x)` on the
  non-negative values that occur here is `Nat.floor`.
* On the fallback path the two roundings of `char_count / 3.5 * 1.2` are
  modelled by exact rational arithmetic (`3.5` and `1.2` are the exact
  rationals `7/2` and `6/5`): there the exact result `12·c/35` sits at least
  `1/35` away from the truncation boundary except when `35 ∣ c`, where the
  float computation is exact in the first step and rounds the second back to
  the exact integer, so float and exact evaluation agree for every character
  count a real string can have (divergence would need `c` beyond `3·10^14`).
* The filesystem seen by one run is a snapshot tree `FSDir`.  A file carries
  the outcome of its `stat` call (`none` models an OS error raised by
  `Path.stat`) and the outcome of opening/decoding it (`none` models an
  exception raised by `open`/`read`).
* `print` side effects during the scan are modelled by a list of `Notice`
  values emitted in traversal order; the exact formatted text (which involves
  `format_size`'s floats and Python exception rendering) is abstracted to the
  constructor and its payload.
* Python's stable `list.sort(key=tokens, reverse=True)` is modelled by
  `List.insertionSort` with the relation `tokensGE`; both are stable sorts by
  the same key, and a stable sort's output is uniquely determined, so this is
  the same function.
-/

/-- Table `TOKEN_MULTIPLIERS` from the source: tokens per 80-character line,
keyed by lower-case extension (with leading dot). -/
def TOKEN_MULTIPLIERS : List (String × Nat) :=
  [(".py", 15), (".js", 18), (".jsx", 18), (".ts", 18), (".tsx", 18),
   (".java", 22), (".c", 20), (".cpp", 20), (".cs", 22), (".go", 16),
   (".rs", 18), (".rb", 16), (".php", 20), (".swift", 20), (".kt", 22),
   (".html", 12), (".css", 12), (".scss", 12), (".json", 15), (".xml", 15),
   (".yaml", 12), (".yml", 12), (".md", 10), (".txt", 8), (".sh", 15),
   (".sql", 15)]

/-- Set `SKIP_DIRS` from the source: directory basenames pruned from traversal. -/
def SKIP_DIRS : List String :=
  [".git", "__pycache__", "node_modules", ".idea", ".vscode",
   "venv", "env", ".env", "dist", "build", "target", ".next",
   "coverage", ".pytest_cache", ".mypy_cache", "vendor"]

/-- Set `SKIP_EXTENSIONS` from the source: binary-file extensions never read. -/
def SKIP_EXTENSIONS : List String :=
  [".pyc", ".pyo", ".so", ".dll", ".dylib", ".exe", ".bin",
   ".jpg", ".jpeg", ".png", ".gif", ".ico", ".svg", ".webp",
   ".mp3", ".mp4", ".avi", ".mov", ".wav", ".flac",
   ".zip", ".tar", ".gz", ".rar", ".7z",
   ".pdf", ".doc", ".docx", ".xls", ".xlsx",
   ".db", ".sqlite", ".sqlite3"]

/-- Model of the Python `str.lower()` method, modelled character-wise (ASCII case folding,
which is all that the extension tables exercise). -/
def strLower (s : String) : String := String.mk (s.toList.map Char.toLower)

/-- Index of the last `.` in a list of characters, if any. -/
def rfindDot : List Char → Option Nat
  | [] => none
  | c :: cs =>
    match rfindDot cs with
    | some i => some (i + 1)
    | none => if c = '.' then some 0 else none

/-- Model of `pathlib.PurePath.suffix` of a file basename: the part from the last dot
on, provided that dot is neither the first nor the last character; `""`
otherwise (so `".env"` and `"a."` have no suffix). -/
def suffix (name : String) : String :=
  let cs := name.toList
  match rfindDot cs with
  | some i => if 0 < i ∧ i < cs.length - 1 then String.mk (cs.drop i) else ""
  | none => ""

/-- Nearest integer to `s`, ties to even — the rounding of an IEEE
significand. -/
def nteZ (s : ℚ) : ℤ :=
  if 1/2 < s - ⌊s⌋ then ⌊s⌋ + 1
  else if s - ⌊s⌋ < 1/2 then ⌊s⌋
  else if 2 ∣ ⌊s⌋ then ⌊s⌋ else ⌊s⌋ + 1

/-- IEEE binary64 rounding of a positive rational in the normal range:
scale into the binade `[2^52, 2^53)`, round the significand to the nearest
integer (ties to even), and scale back.  Zero rounds to zero; every value
this development feeds in is non-negative and far from overflow and
subnormals. -/
def roundNE (x : ℚ) : ℚ :=
  if 0 < x then
    (nteZ (x / 2 ^ (Int.log 2 x - 52)) : ℚ) * 2 ^ (Int.log 2 x - 52)
  else 0

/-- A Python float division: the exact quotient, rounded. -/
def fdiv (x y : ℚ) : ℚ := roundNE (x / y)

/-- A Python float multiplication: the exact product, rounded. -/
def fmul (x y : ℚ) : ℚ := roundNE (x * y)

theorem nteZ_ge_floor (s : ℚ) : ⌊s⌋ ≤ nteZ s := by
  unfold nteZ
  split_ifs <;> omega

theorem nteZ_le_floor_add_one (s : ℚ) : nteZ s ≤ ⌊s⌋ + 1 := by
  unfold nteZ
  split_ifs <;> omega

theorem nteZ_le (s : ℚ) : (nteZ s : ℚ) ≤ s + 1/2 := by
  have h1 := Int.floor_le s
  have h2 := Int.lt_floor_add_one s
  unfold nteZ
  split_ifs with ha hb hc <;> push_cast <;> linarith

theorem le_nteZ (s : ℚ) : s - 1/2 ≤ (nteZ s : ℚ) := by
  have h1 := Int.floor_le s
  have h2 := Int.lt_floor_add_one s
  unfold nteZ
  split_ifs with ha hb hc <;> push_cast <;> linarith

theorem nteZ_mono {s t : ℚ} (h : s ≤ t) : nteZ s ≤ nteZ t := by
  rcases lt_or_eq_of_le (Int.floor_le_floor h) with hf | hf
  · calc nteZ s ≤ ⌊s⌋ + 1 := nteZ_le_floor_add_one s
      _ ≤ ⌊t⌋ := by omega
      _ ≤ nteZ t := nteZ_ge_floor t
  · have hs1 := Int.floor_le s
    have ht1 := Int.floor_le t
    unfold nteZ
    rw [hf]
    have hfr : s - (⌊t⌋ : ℚ) ≤ t - (⌊t⌋ : ℚ) := by linarith
    split_ifs <;> first | omega | linarith

theorem roundNE_zero : roundNE 0 = 0 := by simp [roundNE]

theorem roundNE_nonneg (x : ℚ) : 0 ≤ roundNE x := by
  unfold roundNE
  split_ifs with hx
  · have hw : (0:ℚ) < 2 ^ (Int.log 2 x - 52) := zpow_pos (by norm_num) _
    have hs : (0:ℚ) ≤ x / 2 ^ (Int.log 2 x - 52) := le_of_lt (div_pos hx hw)
    have hn : (0:ℤ) ≤ ⌊x / 2 ^ (Int.log 2 x - 52)⌋ := Int.floor_nonneg.mpr hs
    have hn2 := nteZ_ge_floor (x / 2 ^ (Int.log 2 x - 52))
    have hn3 : (0:ℤ) ≤ nteZ (x / 2 ^ (Int.log 2 x - 52)) := le_trans hn hn2
    exact mul_nonneg (by exact_mod_cast hn3) (le_of_lt hw)
  · exact le_refl 0

/-- The relative-error bound of one rounding: a half unit in the last place,
at most `x / 2^53` for `x` in the binade `[2^e, 2^(e+1))`. -/
theorem roundNE_err (x : ℚ) (hx : 0 < x) :
    x - x / 2 ^ 53 ≤ roundNE x ∧ roundNE x ≤ x + x / 2 ^ 53 := by
  have hw : (0:ℚ) < 2 ^ (Int.log 2 x - 52) := zpow_pos (by norm_num) _
  have hr : roundNE x = (nteZ (x / 2 ^ (Int.log 2 x - 52)) : ℚ) * 2 ^ (Int.log 2 x - 52) := by
    unfold roundNE
    rw [if_pos hx]
  have hlog : (2:ℚ) ^ Int.log 2 x ≤ x := by
    have := Int.zpow_log_le_self (b := 2) (R := ℚ) (by norm_num) hx
    simpa using this
  have hcancel : x / 2 ^ (Int.log 2 x - 52) * 2 ^ (Int.log 2 x - 52) = x :=
    div_mul_cancel₀ x (ne_of_gt hw)
  have hupper := mul_le_mul_of_nonneg_right
    (nteZ_le (x / 2 ^ (Int.log 2 x - 52))) (le_of_lt hw)
  have hlower := mul_le_mul_of_nonneg_right
    (le_nteZ (x / 2 ^ (Int.log 2 x - 52))) (le_of_lt hw)
  rw [sub_mul] at hlower
  rw [add_mul] at hupper
  rw [hcancel] at hlower hupper
  have hhalf : 1/2 * (2:ℚ) ^ (Int.log 2 x - 52) ≤ x / 2 ^ 53 := by
    have hepow : (2:ℚ) ^ (Int.log 2 x - 52) * 2 ^ (53:ℕ) = 2 * 2 ^ Int.log 2 x := by
      rw [← zpow_natCast (2:ℚ) 53, ← zpow_add₀ (by norm_num : (2:ℚ) ≠ 0)]
      rw [show Int.log 2 x - 52 + (53:ℕ) = Int.log 2 x + 1 by push_cast; omega]
      rw [zpow_add_one₀ (by norm_num : (2:ℚ) ≠ 0)]
      ring
    rw [le_div_iff₀ (by norm_num : (0:ℚ) < 2 ^ 53)]
    calc (1/2 : ℚ) * 2 ^ (Int.log 2 x - 52) * 2 ^ (53:ℕ)
        = (1/2 : ℚ) * ((2:ℚ) ^ (Int.log 2 x - 52) * (2:ℚ) ^ (53:ℕ)) := by ring
      _ = (1/2 : ℚ) * (2 * (2:ℚ) ^ Int.log 2 x) := by rw [hepow]
      _ = (2:ℚ) ^ Int.log 2 x := by ring
      _ ≤ x := hlog
  constructor
  · rw [hr]
    linarith
  · rw [hr]
    linarith

/-- Rounding to nearest is monotone. -/
theorem roundNE_mono (x y : ℚ) (hx : 0 ≤ x) (hxy : x ≤ y) : roundNE x ≤ roundNE y := by
  rcases eq_or_lt_of_le hx with h0 | hx'
  · rw [← h0, roundNE_zero]
    exact roundNE_nonneg y
  · have hy' : 0 < y := lt_of_lt_of_le hx' hxy
    have hee : Int.log 2 x ≤ Int.log 2 y := Int.log_mono_right hx' hxy
    rcases eq_or_lt_of_le hee with heq | hlt
    · unfold roundNE
      rw [if_pos hx', if_pos hy', ← heq]
      have hw : (0:ℚ) < 2 ^ (Int.log 2 x - 52) := zpow_pos (by norm_num) _
      have hs : x / 2 ^ (Int.log 2 x - 52) ≤ y / 2 ^ (Int.log 2 x - 52) := by gcongr
      exact mul_le_mul_of_nonneg_right (by exact_mod_cast nteZ_mono hs) (le_of_lt hw)
    · have hwx : (0:ℚ) < 2 ^ (Int.log 2 x - 52) := zpow_pos (by norm_num) _
      have hwy : (0:ℚ) < 2 ^ (Int.log 2 y - 52) := zpow_pos (by norm_num) _
      have hxlt : x < 2 ^ (Int.log 2 x + 1) := by
        have := Int.lt_zpow_succ_log_self (b := 2) (R := ℚ) (by norm_num) x
        simpa using this
      have hylog : (2:ℚ) ^ Int.log 2 y ≤ y := by
        have := Int.zpow_log_le_self (b := 2) (R := ℚ) (by norm_num) hy'
        simpa using this
      have hpow1 : (2:ℚ) ^ (53:ℕ) * 2 ^ (Int.log 2 x - 52) = 2 ^ (Int.log 2 x + 1) := by
        rw [← zpow_natCast (2:ℚ) 53, ← zpow_add₀ (by norm_num : (2:ℚ) ≠ 0)]
        congr 1
        push_cast
        omega
      have hpow2 : (2:ℚ) ^ (52:ℕ) * 2 ^ (Int.log 2 y - 52) = 2 ^ Int.log 2 y := by
        rw [← zpow_natCast (2:ℚ) 52, ← zpow_add₀ (by norm_num : (2:ℚ) ≠ 0)]
        congr 1
        push_cast
        omega
      have hsx : x / 2 ^ (Int.log 2 x - 52) < 2 ^ (53:ℕ) := by
        rw [div_lt_iff₀ hwx]
        calc x < 2 ^ (Int.log 2 x + 1) := hxlt
          _ = (2:ℚ) ^ (53:ℕ) * 2 ^ (Int.log 2 x - 52) := hpow1.symm
      have hnx : nteZ (x / 2 ^ (Int.log 2 x - 52)) ≤ 2 ^ 53 := by
        have h1 := nteZ_le_floor_add_one (x / 2 ^ (Int.log 2 x - 52))
        have h2 : ⌊x / 2 ^ (Int.log 2 x - 52)⌋ < (2:ℤ) ^ 53 := by
          rw [Int.floor_lt]
          push_cast
          exact_mod_cast hsx
        omega
      have hsy : (2:ℚ) ^ (52:ℕ) ≤ y / 2 ^ (Int.log 2 y - 52) := by
        rw [le_div_iff₀ hwy]
        calc (2:ℚ) ^ (52:ℕ) * 2 ^ (Int.log 2 y - 52) = 2 ^ Int.log 2 y := hpow2
          _ ≤ y := hylog
      have hny : (2:ℤ) ^ 52 ≤ nteZ (y / 2 ^ (Int.log 2 y - 52)) := by
        refine le_trans ?_ (nteZ_ge_floor _)
        rw [Int.le_floor]
        push_cast
        exact_mod_cast hsy
      unfold roundNE
      rw [if_pos hx', if_pos hy']
      calc (nteZ (x / 2 ^ (Int.log 2 x - 52)) : ℚ) * 2 ^ (Int.log 2 x - 52)
          ≤ (2:ℚ) ^ (53:ℕ) * 2 ^ (Int.log 2 x - 52) := by
            apply mul_le_mul_of_nonneg_right _ (le_of_lt hwx)
            exact_mod_cast hnx
        _ = 2 ^ (Int.log 2 x + 1) := hpow1
        _ ≤ 2 ^ Int.log 2 y := zpow_le_zpow_right₀ (by norm_num) (by omega)
        _ = (2:ℚ) ^ (52:ℕ) * 2 ^ (Int.log 2 y - 52) := hpow2.symm
        _ ≤ (nteZ (y / 2 ^ (Int.log 2 y - 52)) : ℚ) * 2 ^ (Int.log 2 y - 52) := by
            apply mul_le_mul_of_nonneg_right _ (le_of_lt hwy)
            exact_mod_cast hny

/-- Function `estimate_tokens` from the source.  `file_extension = ""` models Python's
`None`/empty-string argument (both are falsy).  On the table path the two
float operations are rounded with `roundNE`, matching binary64; on the
fallback path the floats are modelled by exact rationals, which agrees with
binary64 for every character count a real string can have (see the module
docstring).  The final `int(...)` is `Nat.floor` (its argument is always
non-negative). -/
def estimate_tokens (char_count : Nat) (file_extension : String) : Nat :=
  let base_tokens : ℚ := (char_count : ℚ) / 3.5
  if file_extension ≠ "" ∧ (TOKEN_MULTIPLIERS.lookup (strLower file_extension)).isSome = true then
    let lines : ℚ := fdiv (char_count : ℚ) 80
    ⌊fmul lines (((TOKEN_MULTIPLIERS.lookup (strLower file_extension)).getD 0 : Nat) : ℚ)⌋₊
  else
    ⌊base_tokens * 1.2⌋₊

/-- Branch extraction: on a table hit the estimate is the floored float
product of the float quotient `char_count / 80` with the multiplier. -/
theorem estimate_tokens_table_eq (c m : Nat) (e : String)
    (h : TOKEN_MULTIPLIERS.lookup (strLower e) = some m) :
    estimate_tokens c e = ⌊fmul (fdiv (c:ℚ) 80) ((m:ℕ):ℚ)⌋₊ := by
  have he : e ≠ "" := by
    intro he
    subst he
    have hnone : TOKEN_MULTIPLIERS.lookup (strLower "") = none := by decide
    rw [hnone] at h
    exact Option.noConfusion h
  simp only [estimate_tokens]
  rw [if_pos ⟨he, by rw [h]; rfl⟩, h]
  rfl

theorem lookup_snd_mem (l : List (String × Nat)) (k : String) (m : Nat)
    (h : l.lookup k = some m) : m ∈ l.map Prod.snd := by
  induction l with
  | nil => exact Option.noConfusion h
  | cons a as ih =>
    obtain ⟨ka, va⟩ := a
    rw [List.lookup] at h
    cases hbeq : (k == ka) with
    | true =>
      rw [hbeq] at h
      simp only [Option.some.injEq] at h
      subst h
      exact List.mem_cons_self _ _
    | false =>
      rw [hbeq] at h
      exact List.mem_cons_of_mem _ (ih h)

/-- Every multiplier in the table is between 1 and 22. -/
theorem multiplier_bounds (k : String) (m : Nat)
    (h : TOKEN_MULTIPLIERS.lookup k = some m) : 1 ≤ m ∧ m ≤ 22 :=
  (show ∀ v ∈ TOKEN_MULTIPLIERS.map Prod.snd, 1 ≤ v ∧ v ≤ 22 by decide)
    m (lookup_snd_mem TOKEN_MULTIPLIERS k m h)

/-- The doubly rounded table-path value, floored, is `c * m / 80` except
that it can be exactly one less, and only when `80 ∣ c * m`: the combined
relative error of the two roundings is below `2^-51`, which for
`c ≤ 2^40` and `m ≤ 22` keeps the value within `3/8192 < 1/80` of the
exact `c·m/80`, so the floor can move only across the integer boundary that
`c·m/80` itself sits on. -/
theorem fmul_fdiv_floor (c m : Nat) (hc : c ≤ 2 ^ 40) (hm1 : 1 ≤ m) (hm : m ≤ 22) :
    ⌊fmul (fdiv (c:ℚ) 80) ((m:ℕ):ℚ)⌋₊ = c * m / 80 ∨
      (80 ∣ c * m ∧ ⌊fmul (fdiv (c:ℚ) 80) ((m:ℕ):ℚ)⌋₊ + 1 = c * m / 80) := by
  rcases Nat.eq_zero_or_pos c with rfl | hc0
  · left
    norm_num [fdiv, fmul, roundNE_zero]
  · have hA : (0:ℚ) < (c:ℚ)/80 := by positivity
    have hm0 : (0:ℚ) ≤ (m:ℚ) := Nat.cast_nonneg m
    have hm1q : (1:ℚ) ≤ (m:ℚ) := by exact_mod_cast hm1
    have hmq : (m:ℚ) ≤ 22 := by exact_mod_cast hm
    have hcq : (c:ℚ) ≤ 2 ^ 40 := by exact_mod_cast hc
    obtain ⟨hq1, hq2⟩ := roundNE_err ((c:ℚ)/80) hA
    simp only [fdiv]
    set q : ℚ := roundNE ((c:ℚ)/80) with hqd
    have hqpos : 0 < q := by
      have hE : (c:ℚ)/80/2^53 < (c:ℚ)/80 := div_lt_self hA (by norm_num)
      linarith
    have hqmpos : 0 < q * (m:ℚ) := mul_pos hqpos (by linarith)
    obtain ⟨hp1, hp2⟩ := roundNE_err (q * (m:ℚ)) hqmpos
    set x : ℚ := (c:ℚ) * (m:ℚ) / 80 with hxd
    have hx0 : 0 < x := by positivity
    have hxle : x ≤ 2 ^ 40 := by
      have h1 : (c:ℚ) * (m:ℚ) ≤ 2 ^ 40 * 22 :=
        mul_le_mul hcq hmq hm0 (by positivity)
      rw [hxd]
      rw [div_le_iff₀ (by norm_num : (0:ℚ) < 80)]
      nlinarith
    have hqm_up : q * (m:ℚ) ≤ x + x / 2^53 := by
      have := mul_le_mul_of_nonneg_right hq2 hm0
      have hr1 : ((c:ℚ)/80 + (c:ℚ)/80/2^53) * (m:ℚ) = x + x / 2^53 := by
        rw [hxd]; ring
      linarith
    have hqm_lo : x - x / 2^53 ≤ q * (m:ℚ) := by
      have := mul_le_mul_of_nonneg_right hq1 hm0
      have hr2 : ((c:ℚ)/80 - (c:ℚ)/80/2^53) * (m:ℚ) = x - x / 2^53 := by
        rw [hxd]; ring
      linarith
    have hdd : q * (m:ℚ) / 2^53 ≤ (x + x / 2^53) / 2^53 := by gcongr
    have hexp : (x + x / 2^53) / 2^53 = x / 2^53 + x / (2^53 * 2^53) := by ring
    have hsmall : x / (2^53 * 2^53) ≤ x / 2^53 := by
      apply div_le_div_of_nonneg_left (le_of_lt hx0) (by norm_num)
      norm_num
    have hpup : fmul q (m:ℚ) ≤ x + 3 * (x / 2^53) := by
      have hfm : fmul q (m:ℚ) = roundNE (q * (m:ℚ)) := rfl
      rw [hfm]
      linarith
    have hplo : x - 3 * (x / 2^53) ≤ fmul q (m:ℚ) := by
      have hfm : fmul q (m:ℚ) = roundNE (q * (m:ℚ)) := rfl
      rw [hfm]
      linarith
    have herr : 3 * (x / 2^53) ≤ 3 / 8192 := by
      have h1 : x / 2^53 ≤ (2^40 : ℚ) / 2^53 := by gcongr
      have h2 : (2^40 : ℚ) / 2^53 = 1 / 8192 := by norm_num
      linarith
    set p : ℚ := fmul q (m:ℚ) with hpd
    set N : ℕ := c * m / 80 with hNd
    set r : ℕ := c * m % 80 with hrd
    have hNr : c * m = 80 * N + r := (Nat.div_add_mod (c * m) 80).symm
    have hrlt : r < 80 := Nat.mod_lt _ (by norm_num)
    have hxN : x = (N:ℚ) + (r:ℚ)/80 := by
      rw [hxd]
      rw [show (c:ℚ) * (m:ℚ) = ((c * m : ℕ) : ℚ) by push_cast; ring]
      rw [hNr]
      push_cast
      ring
    rcases Nat.eq_zero_or_pos r with hr0 | hr1
    · have hxNeq : x = (N:ℚ) := by rw [hxN, hr0]; norm_num
      have hN1 : 1 ≤ N := by
        have hcm : 0 < c * m := Nat.mul_pos hc0 hm1
        omega
      have hp0 : 0 ≤ p := by
        have hN1q : (1:ℚ) ≤ (N:ℚ) := by exact_mod_cast hN1
        linarith [hplo, herr]
      have hup : ⌊p⌋₊ ≤ N := by
        have hplt : p < (N:ℚ) + 1 := by rw [← hxNeq] at *; linarith
        have hlt := (Nat.floor_lt hp0).mpr
          (by exact_mod_cast (by push_cast; linarith : p < ((N + 1 : ℕ) : ℚ)))
        omega
      have hlo : N - 1 ≤ ⌊p⌋₊ := by
        have hcast : ((N - 1 : ℕ) : ℚ) ≤ p := by
          rw [Nat.cast_sub hN1]
          push_cast
          linarith
        exact Nat.le_floor hcast
      have hdvd : 80 ∣ c * m := ⟨N, by omega⟩
      have hcase : ⌊p⌋₊ = N ∨ ⌊p⌋₊ + 1 = N := by omega
      rcases hcase with h | h
      · left; exact h
      · right; exact ⟨hdvd, h⟩
    · left
      have hr1q : (1:ℚ) ≤ (r:ℚ) := by exact_mod_cast hr1
      have hr79 : (r:ℚ) ≤ 79 := by exact_mod_cast (by omega : r ≤ 79)
      have hp0 : 0 ≤ p := by
        have hNq : (0:ℚ) ≤ (N:ℚ) := Nat.cast_nonneg N
        linarith [hplo, herr, hxN]
      rw [Nat.floor_eq_iff hp0]
      constructor
      · rw [hxN] at hplo
        linarith
      · rw [hxN] at hpup
        linarith

/-- On the table path the single truncation happens after the (rounded)
multiplication: the estimate is `c * m / 80`, or exactly one less when
float rounding lands just below an exact multiple of 80. -/
theorem estimate_tokens_table (c m : Nat) (e : String)
    (h : TOKEN_MULTIPLIERS.lookup (strLower e) = some m) (hc : c ≤ 2 ^ 40) :
    estimate_tokens c e = c * m / 80 ∨
      (80 ∣ c * m ∧ estimate_tokens c e + 1 = c * m / 80) := by
  rw [estimate_tokens_table_eq c m e h]
  exact fmul_fdiv_floor c m hc (multiplier_bounds _ m h).1 (multiplier_bounds _ m h).2

/-- On the fallback path the result is `⌊char_count / 3.5 * 1.2⌋`, which as a
natural-number expression is `12 * char_count / 35`. -/
theorem estimate_tokens_default (c : Nat) (e : String)
    (h : e = "" ∨ TOKEN_MULTIPLIERS.lookup (strLower e) = none) :
    estimate_tokens c e = 12 * c / 35 := by
  simp only [estimate_tokens]
  rw [if_neg]
  · rw [show (c : ℚ) / 3.5 * 1.2 = ((12 * c : ℕ) : ℚ) / ((35 : ℕ) : ℚ) by
      push_cast; norm_num; ring]
    rw [Nat.floor_div_nat, Nat.floor_natCast]
  · rintro ⟨hne, hsome⟩
    rcases h with h | h
    · exact hne h
    · rw [h] at hsome
      exact Bool.noConfusion hsome

/-- Zero characters estimate to zero tokens on both paths. -/
theorem estimate_tokens_zero (e : String) : estimate_tokens 0 e = 0 := by
  by_cases he : e = ""
  · rw [estimate_tokens_default 0 e (Or.inl he)]
  · cases hl : TOKEN_MULTIPLIERS.lookup (strLower e) with
    | none => rw [estimate_tokens_default 0 e (Or.inr hl)]
    | some m =>
        rw [estimate_tokens_table_eq 0 m e hl]
        norm_num [fdiv, fmul, roundNE_zero]

example : suffix "a.py" = ".py" := by decide
example : suffix ".env" = "" := by decide
example : suffix "a.tar.gz" = ".gz" := by decide
example : suffix "noext" = "" := by decide
example : TOKEN_MULTIPLIERS.lookup ".py" = some 15 := by decide
example : estimate_tokens 40 ".py" = 7 := by
  rcases estimate_tokens_table 40 15 ".py" (by decide) (by decide) with h | ⟨hdvd, h⟩
  · rw [h]
  · exact absurd hdvd (by decide)

/-- C1 (counterexample): the claim says the division by 80 is floored before
the multiplication, so 40 characters of `.py` would give `(40 / 80) * 15 = 0`;
the code truncates only after multiplying and returns `⌊0.5 * 15⌋ = 7` (both
float operations are exact at this input, so no rounding is involved). -/
theorem C1_claim_false_at_40_py : estimate_tokens 40 ".py" ≠ 40 / 80 * 15 := by
  rcases estimate_tokens_table 40 15 ".py" (by decide) (by decide) with h | ⟨hdvd, h⟩
  · rw [h]
    decide
  · exact absurd hdvd (by decide)

/-- C1 (amended): for every `char_count ≤ 2^40` and extension `e` that is
case-insensitively a key of `TOKEN_MULTIPLIERS` with multiplier `m`, the
estimate truncates once, after multiplying the rounded float quotient
`char_count / 80` by `m`: it equals `char_count * m / 80`, or exactly one
less when the accumulated float rounding lands just below an integer, which
can happen only when `80 ∣ char_count * m`.  In particular a `char_count`
under 80 can estimate to a nonzero value. -/
theorem C1_table_path_truncates_after_multiplying (c m : Nat) (e : String)
    (h : TOKEN_MULTIPLIERS.lookup (strLower e) = some m) (hc : c ≤ 2 ^ 40) :
    estimate_tokens c e = c * m / 80 ∨
      (80 ∣ c * m ∧ estimate_tokens c e + 1 = c * m / 80) :=
  estimate_tokens_table c m e h hc

/-- C1 witness: `.py` has multiplier 15 and the 160-character estimate is
characterized at `160 * 15 / 80 = 30`. -/
theorem C1_table_path_truncates_after_multiplying_witness :
    TOKEN_MULTIPLIERS.lookup (strLower ".py") = some 15 ∧ 160 ≤ 2 ^ 40 ∧
      (estimate_tokens 160 ".py" = 160 * 15 / 80 ∨
        (80 ∣ 160 * 15 ∧ estimate_tokens 160 ".py" + 1 = 160 * 15 / 80)) :=
  ⟨by decide, by decide,
    C1_table_path_truncates_after_multiplying 160 15 ".py" (by decide) (by decide)⟩

/-- C6: for any extension that is not (case-insensitively) a key of
`TOKEN_MULTIPLIERS` — including the empty extension — the estimate is
`⌊char_count / 3.5 * 1.2⌋ = 12 * char_count / 35`, and zero characters
estimate to zero tokens for every extension (both paths). -/
theorem C6_fallback_estimate (c : Nat) (e e2 : String)
    (h : e = "" ∨ TOKEN_MULTIPLIERS.lookup (strLower e) = none) :
    estimate_tokens c e = 12 * c / 35 ∧ estimate_tokens 0 e2 = 0 :=
  ⟨estimate_tokens_default c e h, estimate_tokens_zero e2⟩

/-- C6 witness: 35 characters with no extension estimate to 12 tokens, and
zero characters of `.py` estimate to zero. -/
theorem C6_fallback_estimate_witness :
    ((("" : String) = "" ∨ TOKEN_MULTIPLIERS.lookup (strLower "") = none) ∧
      estimate_tokens 35 "" = 12 * 35 / 35 ∧ estimate_tokens 0 ".py" = 0) :=
  ⟨Or.inl rfl, C6_fallback_estimate 35 "" ".py" (Or.inl rfl)⟩

/-- C9: for any fixed extension, `estimate_tokens` is monotone non-decreasing
in the character count. -/
theorem C9_estimate_monotone (e : String) (a b : Nat) (hab : a ≤ b) :
    estimate_tokens a e ≤ estimate_tokens b e := by
  by_cases he : e = ""
  · rw [estimate_tokens_default a e (Or.inl he), estimate_tokens_default b e (Or.inl he)]
    exact Nat.div_le_div_right (Nat.mul_le_mul_left 12 hab)
  · cases hl : TOKEN_MULTIPLIERS.lookup (strLower e) with
    | none =>
        rw [estimate_tokens_default a e (Or.inr hl), estimate_tokens_default b e (Or.inr hl)]
        exact Nat.div_le_div_right (Nat.mul_le_mul_left 12 hab)
    | some m =>
        rw [estimate_tokens_table_eq a m e hl, estimate_tokens_table_eq b m e hl]
        have h1 : (0:ℚ) ≤ fdiv (a:ℚ) 80 := roundNE_nonneg _
        have h2 : fdiv (a:ℚ) 80 ≤ fdiv (b:ℚ) 80 := by
          apply roundNE_mono
          · positivity
          · gcongr
        have h3 : fdiv (a:ℚ) 80 * (m:ℚ) ≤ fdiv (b:ℚ) 80 * (m:ℚ) :=
          mul_le_mul_of_nonneg_right h2 (Nat.cast_nonneg m)
        exact Nat.floor_mono (roundNE_mono _ _ (mul_nonneg h1 (Nat.cast_nonneg m)) h3)

/-- C9 witness: 3 ≤ 200 and the `.py` estimate at 3 characters is at most the
estimate at 200 characters. -/
theorem C9_estimate_monotone_witness :
    3 ≤ 200 ∧ estimate_tokens 3 ".py" ≤ estimate_tokens 200 ".py" :=
  ⟨by decide, C9_estimate_monotone ".py" 3 200 (by decide)⟩

/-- Model of the Python test that a basename starts with a dot, character-wise: the first character is
a dot. -/
def startsWithDot (name : String) : Bool :=
  match name.toList with
  | [] => false
  | c :: _ => c = '.'

/-- Function `should_skip_file` from the source: hidden files (basename starts with a
dot) and files whose lower-cased suffix is in `SKIP_EXTENSIONS`. -/
def should_skip_file (name : String) : Bool :=
  startsWithDot name || SKIP_EXTENSIONS.contains (strLower (suffix name))

/-- One file of the snapshot tree.  `statSize = none` models `Path.stat`
raising an OS error; `content = none` models `open`/`read` raising.  A
successfully decoded file is its decoded text (decoding with
`errors='ignore'` never fails, so lossiness is folded into the text). -/
structure FSFile where
  name : String
  statSize : Option Nat
  content : Option String
deriving DecidableEq, Repr

/-- A directory of the snapshot tree: basename, subdirectories, files. -/
inductive FSDir : Type where
  | mk (name : String) (subdirs : List FSDir) (files : List FSFile) : FSDir

/-- Basename of a directory. -/
def FSDir.name : FSDir → String
  | .mk n _ _ => n

/-- Subdirectories of a directory. -/
def FSDir.subdirs : FSDir → List FSDir
  | .mk _ ds _ => ds

/-- Files of a directory. -/
def FSDir.files : FSDir → List FSFile
  | .mk _ _ fs => fs

/-- Relative path `file_path.relative_to(directory)` as a string: at the root the relative
path is just the basename. -/
def joinPath (p n : String) : String := if p = "" then n else p ++ "/" ++ n

/-- Model of `os.walk` with the in-place pruning
`dirs[:] = [d for d in dirs if d not in SKIP_DIRS]`: the visited files in
visit order, as (relative path, file) pairs.  Files of a directory come
before the files of its subdirectories (top-down walk), and a subdirectory
whose basename is in `SKIP_DIRS` is pruned together with its whole subtree.
The root directory itself is never name-checked, matching `os.walk`. -/
def walkFiles (p : String) : FSDir → List (String × FSFile)
  | .mk _ subdirs files =>
    files.map (fun f => (joinPath p f.name, f)) ++ walkSubdirs p subdirs
where
  /-- Walk a list of subdirectories, pruning skip-listed basenames. -/
  walkSubdirs (p : String) : List FSDir → List (String × FSFile)
  | [] => []
  | d :: ds =>
    (if SKIP_DIRS.contains d.name then [] else walkFiles (joinPath p d.name) d)
      ++ walkSubdirs p ds

/-- The per-extension accumulator (`{'files': 0, 'chars': 0, 'tokens': 0}`). -/
structure ExtStats where
  files : Nat
  chars : Nat
  tokens : Nat
deriving DecidableEq, Repr

/-- One entry of the largest-files pool. -/
structure FileRec where
  path : String
  chars : Nat
  tokens : Nat
  size : Nat
deriving DecidableEq, Repr

/-- The `stats` dictionary.  `by_extension` is an insertion-ordered
association list, the shape a Python `dict` preserves. -/
structure Stats where
  total_chars : Nat
  total_tokens : Nat
  total_files : Nat
  skipped_files : Nat
  errors : Nat
  by_extension : List (String × ExtStats)
  largest_files : List FileRec
deriving DecidableEq, Repr

/-- The initial `stats` value. -/
def initStats : Stats :=
  { total_chars := 0, total_tokens := 0, total_files := 0, skipped_files := 0,
    errors := 0, by_extension := [], largest_files := [] }

/-- The per-extension table update: a `defaultdict` lookup that creates
the entry on first touch, followed by the three `+=` updates. -/
def updateExt (bx : List (String × ExtStats)) (key : String) (cc tok : Nat) :
    List (String × ExtStats) :=
  match bx with
  | [] => [(key, ⟨1, cc, tok⟩)]
  | (k, e) :: rest =>
    if k = key then (k, ⟨e.files + 1, e.chars + cc, e.tokens + tok⟩) :: rest
    else (k, e) :: updateExt rest key cc tok

/-- A `print` side effect during the scan, abstracted to its kind and
payload: the large-file notice of the size rule, or the error notice of the
`except` block (raised either by `stat` or by `open`/`read`). -/
inductive Notice : Type where
  | largeFile (relPath : String) (size : Nat) : Notice
  | readError (relPath : String) : Notice
deriving DecidableEq, Repr

/-- The extension key used for `by_extension`:
`file_path.suffix.lower() or '.no_ext'`. -/
def extKey (name : String) : String :=
  if strLower (suffix name) = "" then ".no_ext" else strLower (suffix name)

/-- The per-file body of the scan loop (source lines 143-187), acting on the
running `stats`.  The branches, in source order: hidden/skip-extension skip,
`stat` failure (caught by the `except`), size rule, read failure (caught by
the `except`), successful accumulation. -/
def stepStats (maxSize : Nat) (s : Stats) (pf : String × FSFile) : Stats :=
  if should_skip_file pf.2.name then
    { s with skipped_files := s.skipped_files + 1 }
  else
    match pf.2.statSize with
    | none => { s with errors := s.errors + 1 }
    | some size =>
      if size > maxSize then { s with skipped_files := s.skipped_files + 1 }
      else
        match pf.2.content with
        | none => { s with errors := s.errors + 1 }
        | some content =>
          let cc := content.length
          let tokens := estimate_tokens cc (suffix pf.2.name)
          { s with
            total_chars := s.total_chars + cc
            total_tokens := s.total_tokens + tokens
            total_files := s.total_files + 1
            by_extension := updateExt s.by_extension (extKey pf.2.name) cc tokens
            largest_files := s.largest_files ++ [⟨pf.1, cc, tokens, size⟩] }

/-- The notices the loop body prints for one file; they depend only on the
file, not on the accumulated statistics. -/
def fileNotices (maxSize : Nat) (pf : String × FSFile) : List Notice :=
  if should_skip_file pf.2.name then []
  else
    match pf.2.statSize with
    | none => [.readError pf.1]
    | some size =>
      if size > maxSize then [.largeFile pf.1 size]
      else
        match pf.2.content with
        | none => [.readError pf.1]
        | some _ => []

/-- Folding the loop body over a visited-file list. -/
def scanStats (maxSize : Nat) (l : List (String × FSFile)) : Stats :=
  l.foldl (stepStats maxSize) initStats

/-- The notices printed over a visited-file list, in order. -/
def scanLog (maxSize : Nat) (l : List (String × FSFile)) : List Notice :=
  l.flatMap (fileNotices maxSize)

/-- The descending-by-tokens order used for `largest_files`:
`sort(key=lambda x: x['tokens'], reverse=True)`. -/
def tokensGE (a b : FileRec) : Prop := b.tokens ≤ a.tokens

instance : DecidableRel tokensGE :=
  fun a b => inferInstanceAs (Decidable (b.tokens ≤ a.tokens))

instance : IsTotal FileRec tokensGE :=
  ⟨fun a b => Nat.le_total b.tokens a.tokens⟩

instance : IsTrans FileRec tokensGE :=
  ⟨fun _ _ _ hab hbc => Nat.le_trans hbc hab⟩

/-- The post-traversal step (source lines 189-191): stable sort of
`largest_files` descending by tokens, then truncation to 20 entries.
`List.insertionSort` is a stable sort, and a stable sort by a fixed key is a
unique function, so it is the same list Python's stable `list.sort`
produces. -/
def finalize (s : Stats) : Stats :=
  { s with largest_files := (List.insertionSort tokensGE s.largest_files).take 20 }

/-- Function `analyze_directory` restricted to an existing directory: walk, fold, finalize. -/
def analyze (d : FSDir) (max_file_size_mb : Nat) : Stats :=
  finalize (scanStats (max_file_size_mb * 1024 * 1024) (walkFiles "" d))

/-- The notices printed while analyzing an existing directory. -/
def analyzeLog (d : FSDir) (max_file_size_mb : Nat) : List Notice :=
  scanLog (max_file_size_mb * 1024 * 1024) (walkFiles "" d)

/-- How the target path argument resolves: it may not exist, exist but not
be a directory, or be a directory with snapshot contents `d`. -/
inductive Target : Type where
  | missing : Target
  | notADir : Target
  | dir (d : FSDir) : Target

/-- The two fatal messages of `analyze_directory`. -/
inductive FatalMsg : Type where
  | doesNotExist : FatalMsg
  | isNotADirectory : FatalMsg
deriving DecidableEq

/-- Function `analyze_directory` from the source, including its early-exit checks:
the returned statistics (`None` on a fatal error) and the fatal error
messages printed. -/
def analyze_directory (t : Target) (max_file_size_mb : Nat) :
    Option Stats × List FatalMsg :=
  match t with
  | .missing => (none, [.doesNotExist])
  | .notADir => (none, [.isNotADirectory])
  | .dir d => (some (analyze d max_file_size_mb), [])

/-- Function `main` from the source: it calls `analyze_directory` and prints the
report only when statistics were produced.  The source never calls
`sys.exit` and `main` falls off its end on every path, so the interpreter
exits with status 0 unconditionally; the first component records that exit
status. -/
def main_result (t : Target) (max_file_size_mb : Nat) : Nat × Option Stats :=
  (0, (analyze_directory t max_file_size_mb).1)

/-- A file whose read fails (after passing the skip, stat and size checks)
only bumps the error counter. -/
theorem stepStats_readError (maxSize : Nat) (s : Stats) (rel : String) (f : FSFile)
    (sz : Nat) (hskip : should_skip_file f.name = false)
    (hstat : f.statSize = some sz) (hsz : ¬ sz > maxSize) (hread : f.content = none) :
    stepStats maxSize s (rel, f) = { s with errors := s.errors + 1 } := by
  simp only [stepStats, hskip, hstat, hread, Bool.false_eq_true, if_false]
  rw [if_neg hsz]

/-- Bumping the error counter before the loop body is the same as bumping it
after: the body never reads `errors`. -/
theorem stepStats_errors_comm (maxSize : Nat) (s : Stats) (pf : String × FSFile) :
    stepStats maxSize { s with errors := s.errors + 1 } pf =
      { stepStats maxSize s pf with errors := (stepStats maxSize s pf).errors + 1 } := by
  obtain ⟨rel, f⟩ := pf
  simp only [stepStats]
  split
  · rfl
  · split
    · rfl
    · split
      · rfl
      · split
        · rfl
        · rfl

theorem foldl_stepStats_errors_comm (maxSize : Nat) (l : List (String × FSFile)) :
    ∀ s : Stats,
      l.foldl (stepStats maxSize) { s with errors := s.errors + 1 } =
        { l.foldl (stepStats maxSize) s with
            errors := (l.foldl (stepStats maxSize) s).errors + 1 } := by
  induction l with
  | nil => intro s; rfl
  | cons x xs ih =>
    intro s
    simp only [List.foldl_cons]
    rw [stepStats_errors_comm]
    exact ih _

/-- C7: a file whose read/decode step fails increments `errors` and emits
one notice at its point in the scan, contributes nothing to any other field
(the statistics equal those of the same scan without the file, except for
the error counter), and the remaining files are processed exactly as they
would have been. -/
theorem C7_read_failure_isolated (maxSize : Nat) (l1 l2 : List (String × FSFile))
    (rel : String) (f : FSFile) (sz : Nat)
    (hskip : should_skip_file f.name = false)
    (hstat : f.statSize = some sz) (hsz : ¬ sz > maxSize) (hread : f.content = none) :
    scanStats maxSize (l1 ++ (rel, f) :: l2) =
      { scanStats maxSize (l1 ++ l2) with
          errors := (scanStats maxSize (l1 ++ l2)).errors + 1 } ∧
    scanLog maxSize (l1 ++ (rel, f) :: l2) =
      scanLog maxSize l1 ++ Notice.readError rel :: scanLog maxSize l2 := by
  constructor
  · simp only [scanStats, List.foldl_append, List.foldl_cons]
    rw [stepStats_readError maxSize _ rel f sz hskip hstat hsz hread]
    rw [foldl_stepStats_errors_comm]
  · simp only [scanLog, List.flatMap_append, List.flatMap_cons]
    rw [show fileNotices maxSize (rel, f) = [Notice.readError rel] by
      simp only [fileNotices, hskip, hstat, hread, Bool.false_eq_true, if_false]
      rw [if_neg hsz]]
    simp

/-- C7 witness: a scan of a skipped hidden file, an unreadable `c.py`, and an
oversized `big.txt` produces the statistics of the scan without `c.py` plus
one error, and the notices interleave in scan order. -/
theorem C7_read_failure_isolated_witness :
    should_skip_file "c.py" = false ∧
    scanStats 100 [(".hid", ⟨".hid", some 1, some "x"⟩),
        ("c.py", ⟨"c.py", some 10, none⟩), ("big.txt", ⟨"big.txt", some 200, some "y"⟩)] =
      { scanStats 100 [(".hid", ⟨".hid", some 1, some "x"⟩),
          ("big.txt", ⟨"big.txt", some 200, some "y"⟩)] with
          errors := (scanStats 100 [(".hid", ⟨".hid", some 1, some "x"⟩),
            ("big.txt", ⟨"big.txt", some 200, some "y"⟩)]).errors + 1 } ∧
    scanLog 100 [(".hid", ⟨".hid", some 1, some "x"⟩),
        ("c.py", ⟨"c.py", some 10, none⟩), ("big.txt", ⟨"big.txt", some 200, some "y"⟩)] =
      scanLog 100 [(".hid", ⟨".hid", some 1, some "x"⟩)] ++
        Notice.readError "c.py" :: scanLog 100 [("big.txt", ⟨"big.txt", some 200, some "y"⟩)] :=
  ⟨by decide,
    C7_read_failure_isolated 100 [(".hid", ⟨".hid", some 1, some "x"⟩)]
      [("big.txt", ⟨"big.txt", some 200, some "y"⟩)] "c.py" ⟨"c.py", some 10, none⟩ 10
      (by decide) rfl (by decide) rfl⟩

/-- C10: a `stat` failure on a non-hidden, non-skip-extension file is caught
by the same `except` clause as a read failure: it bumps `errors` (not
`skipped_files`) and emits the error notice. -/
theorem C10_stat_failure_is_error (maxSize : Nat) (s : Stats) (rel : String)
    (f : FSFile) (hskip : should_skip_file f.name = false)
    (hstat : f.statSize = none) :
    stepStats maxSize s (rel, f) = { s with errors := s.errors + 1 } ∧
    fileNotices maxSize (rel, f) = [Notice.readError rel] := by
  constructor
  · simp only [stepStats, hskip, hstat, Bool.false_eq_true, if_false]
  · simp only [fileNotices, hskip, hstat, Bool.false_eq_true, if_false]

/-- C10 witness: a file whose `stat` call fails is recorded as one error on
the initial statistics, with its notice. -/
theorem C10_stat_failure_is_error_witness :
    should_skip_file "a.py" = false ∧
    stepStats 100 initStats ("a.py", ⟨"a.py", none, none⟩) =
      { initStats with errors := initStats.errors + 1 } ∧
    fileNotices 100 ("a.py", ⟨"a.py", none, none⟩) = [Notice.readError "a.py"] :=
  ⟨by decide,
    C10_stat_failure_is_error 100 initStats "a.py" ⟨"a.py", none, none⟩ (by decide) rfl⟩

/-- C8: the function `analyze` is a pure function of the directory snapshot and the size
limit — two runs over the same unchanged tree with the same limit return
identical statistics, including the order of the largest-files list (and
print the same notices). -/
theorem C8_analyze_deterministic (d : FSDir) (mb : Nat) (s1 s2 : Stats)
    (h1 : s1 = analyze d mb) (h2 : s2 = analyze d mb) :
    s1 = s2 ∧ analyzeLog d mb = analyzeLog d mb :=
  ⟨h1.trans h2.symm, rfl⟩

/-- A small concrete tree used by the determinism witness. -/
def sampleDir : FSDir :=
  .mk "proj"
    [.mk ".git" [] [⟨"HEAD", some 30, some "ref"⟩],
     .mk "src" [] [⟨"m.py", some 90, some "pass"⟩]]
    [⟨"readme.md", some 5, some "hi"⟩, ⟨"broken.py", some 9, none⟩]

/-- C8 witness: two runs over `sampleDir` with limit 10 agree. -/
theorem C8_analyze_deterministic_witness :
    analyze sampleDir 10 = analyze sampleDir 10 ∧
      analyzeLog sampleDir 10 = analyzeLog sampleDir 10 :=
  C8_analyze_deterministic sampleDir 10 (analyze sampleDir 10) (analyze sampleDir 10) rfl rfl

/-- C2 (counterexample): the claim requires a non-zero exit status when the
target path does not exist, but `main` never calls `sys.exit`, so the
process exits with status 0 there too. -/
theorem C2_claim_false_missing_target_exits_zero :
    (main_result Target.missing 10).1 = 0 := rfl

/-- C2 (amended): the process exit status is 0 in every case; when the
target is missing or not a directory, no statistics are produced and the
fatal error is reported exactly once, and otherwise statistics are
produced (however many files were skipped or errored). -/
theorem C2_exit_zero_fatal_reported_once (t : Target) (mb : Nat) :
    (main_result t mb).1 = 0 ∧
    ((analyze_directory t mb).1 = none ↔ t = Target.missing ∨ t = Target.notADir) ∧
    (analyze_directory t mb).2.length =
      (if (analyze_directory t mb).1 = none then 1 else 0) := by
  refine ⟨rfl, ?_, ?_⟩ <;> cases t <;> simp [analyze_directory]

/-- Sum of the per-extension file counts. -/
def bxFiles (bx : List (String × ExtStats)) : Nat := (bx.map fun p => p.2.files).sum

/-- Sum of the per-extension character counts. -/
def bxChars (bx : List (String × ExtStats)) : Nat := (bx.map fun p => p.2.chars).sum

/-- Sum of the per-extension token counts. -/
def bxTokens (bx : List (String × ExtStats)) : Nat := (bx.map fun p => p.2.tokens).sum

theorem bxFiles_updateExt (bx : List (String × ExtStats)) (key : String) (cc tok : Nat) :
    bxFiles (updateExt bx key cc tok) = bxFiles bx + 1 := by
  induction bx with
  | nil => rfl
  | cons h rest ih =>
    obtain ⟨k, e⟩ := h
    simp only [updateExt]
    split
    · simp [bxFiles]
      omega
    · simp only [bxFiles, List.map_cons, List.sum_cons] at ih ⊢
      omega

theorem bxChars_updateExt (bx : List (String × ExtStats)) (key : String) (cc tok : Nat) :
    bxChars (updateExt bx key cc tok) = bxChars bx + cc := by
  induction bx with
  | nil => simp [bxChars, updateExt]
  | cons h rest ih =>
    obtain ⟨k, e⟩ := h
    simp only [updateExt]
    split
    · simp [bxChars]
      omega
    · simp only [bxChars, List.map_cons, List.sum_cons] at ih ⊢
      omega

theorem bxTokens_updateExt (bx : List (String × ExtStats)) (key : String) (cc tok : Nat) :
    bxTokens (updateExt bx key cc tok) = bxTokens bx + tok := by
  induction bx with
  | nil => simp [bxTokens, updateExt]
  | cons h rest ih =>
    obtain ⟨k, e⟩ := h
    simp only [updateExt]
    split
    · simp [bxTokens]
      omega
    · simp only [bxTokens, List.map_cons, List.sum_cons] at ih ⊢
      omega

/-- The loop invariant of the scan: the grand totals track the per-extension
sums, and one `largest_files` record exists per counted file. -/
def StatsInv (s : Stats) : Prop :=
  s.total_files = bxFiles s.by_extension ∧
  s.total_chars = bxChars s.by_extension ∧
  s.total_tokens = bxTokens s.by_extension ∧
  s.largest_files.length = s.total_files

theorem stepStats_inv (maxSize : Nat) (s : Stats) (pf : String × FSFile)
    (h : StatsInv s) : StatsInv (stepStats maxSize s pf) := by
  obtain ⟨relp, f⟩ := pf
  obtain ⟨h1, h2, h3, h4⟩ := h
  simp only [stepStats]
  split
  · exact ⟨h1, h2, h3, h4⟩
  · split
    · exact ⟨h1, h2, h3, h4⟩
    · split
      · exact ⟨h1, h2, h3, h4⟩
      · split
        · exact ⟨h1, h2, h3, h4⟩
        · refine ⟨?_, ?_, ?_, ?_⟩
          · simp only [bxFiles_updateExt]
            omega
          · simp only [bxChars_updateExt]
            omega
          · simp only [bxTokens_updateExt]
            omega
          · simp only [List.length_append, List.length_cons, List.length_nil]
            omega

theorem scanStats_inv (maxSize : Nat) (l : List (String × FSFile)) :
    StatsInv (scanStats maxSize l) := by
  have aux : ∀ s : Stats, StatsInv s → StatsInv (l.foldl (stepStats maxSize) s) := by
    induction l with
    | nil => exact fun s hs => hs
    | cons x xs ih => exact fun s hs => ih _ (stepStats_inv maxSize s x hs)
  exact aux initStats ⟨rfl, rfl, rfl, rfl⟩

/-- C3: for every tree and size limit, the grand totals of the returned
statistics equal the sums of the per-extension counters. -/
theorem C3_totals_match_extension_sums (d : FSDir) (mb : Nat) :
    (analyze d mb).total_files = bxFiles (analyze d mb).by_extension ∧
    (analyze d mb).total_chars = bxChars (analyze d mb).by_extension ∧
    (analyze d mb).total_tokens = bxTokens (analyze d mb).by_extension := by
  have h := scanStats_inv (mb * 1024 * 1024) (walkFiles "" d)
  exact ⟨h.1, h.2.1, h.2.2.1⟩

/-- The tree with every subdirectory whose basename is in `SKIP_DIRS`
removed, at every depth.  This is the spec's reading of the pruning rule;
comparing `analyze` on a tree and on its pruned form shows the pruned
subtrees contribute to no field of the statistics. -/
def pruneSkip : FSDir → FSDir
  | .mk n subdirs files => .mk n (pruneList subdirs) files
where
  /-- Prune a list of subdirectories. -/
  pruneList : List FSDir → List FSDir
  | [] => []
  | d :: ds =>
    if SKIP_DIRS.contains d.name then pruneList ds
    else pruneSkip d :: pruneList ds

theorem pruneSkip_name (d : FSDir) : (pruneSkip d).name = d.name := by
  cases d
  rfl

theorem walk_prune_aux (n : Nat) :
    (∀ d : FSDir, sizeOf d ≤ n → ∀ p, walkFiles p (pruneSkip d) = walkFiles p d) ∧
    (∀ ds : List FSDir, sizeOf ds ≤ n → ∀ p,
      walkFiles.walkSubdirs p (pruneSkip.pruneList ds) = walkFiles.walkSubdirs p ds) := by
  induction n with
  | zero =>
    constructor
    · intro d hd
      obtain ⟨nm, subs, fs⟩ := d
      simp [FSDir.mk.sizeOf_spec] at hd
    · intro ds hds
      cases ds with
      | nil => simp at hds
      | cons d rest => simp [List.cons.sizeOf_spec] at hds
  | succ n ih =>
    constructor
    · intro d hd p
      obtain ⟨nm, subs, fs⟩ := d
      have hsubs : sizeOf subs ≤ n := by
        simp [FSDir.mk.sizeOf_spec] at hd
        omega
      show walkFiles p (.mk nm (pruneSkip.pruneList subs) fs) = walkFiles p (.mk nm subs fs)
      simp only [walkFiles]
      rw [ih.2 subs hsubs p]
    · intro ds hds p
      cases ds with
      | nil => rfl
      | cons d rest =>
        have hd : sizeOf d ≤ n := by
          simp [List.cons.sizeOf_spec] at hds
          omega
        have hrest : sizeOf rest ≤ n := by
          simp [List.cons.sizeOf_spec] at hds
          omega
        simp only [pruneSkip.pruneList]
        by_cases hskip : SKIP_DIRS.contains d.name
        · rw [if_pos hskip, ih.2 rest hrest p]
          show _ = (if SKIP_DIRS.contains d.name then ([] : List (String × FSFile))
            else walkFiles (joinPath p d.name) d) ++ walkFiles.walkSubdirs p rest
          rw [if_pos hskip, List.nil_append]
        · rw [if_neg hskip]
          show (if SKIP_DIRS.contains (pruneSkip d).name then ([] : List (String × FSFile))
              else walkFiles (joinPath p (pruneSkip d).name) (pruneSkip d))
                ++ walkFiles.walkSubdirs p (pruneSkip.pruneList rest)
            = (if SKIP_DIRS.contains d.name then ([] : List (String × FSFile))
              else walkFiles (joinPath p d.name) d) ++ walkFiles.walkSubdirs p rest
          rw [pruneSkip_name, if_neg hskip, if_neg hskip, ih.1 d hd, ih.2 rest hrest p]

/-- Pruned subtrees are invisible to the walk. -/
theorem walkFiles_pruneSkip (p : String) (d : FSDir) :
    walkFiles p (pruneSkip d) = walkFiles p d :=
  (walk_prune_aux (sizeOf d)).1 d (Nat.le_refl _) p

/-- C5: the statistics and the emitted notices of a tree are identical to
those of the tree with every skip-listed subdirectory subtree deleted: files
inside such directories contribute to no field of the statistics — not to
the totals, not to `skipped_files`, not to `errors`, not to any
per-extension entry, not to the largest-files list — and to no notice. -/
theorem C5_skip_dir_subtrees_invisible (d : FSDir) (mb : Nat) :
    analyze d mb = analyze (pruneSkip d) mb ∧
    analyzeLog d mb = analyzeLog (pruneSkip d) mb := by
  constructor
  · simp only [analyze, walkFiles_pruneSkip]
  · simp only [analyzeLog, walkFiles_pruneSkip]

/-- C4: the largest-files list has length `min 20 total_files`, is sorted
non-increasingly by estimated tokens, and together with the dropped tail of
the sorted pool is a permutation of all processed records, every dropped
record having at most the tokens of every kept one — i.e. it consists of the
highest-token entries. -/
theorem C4_largest_files_top20 (d : FSDir) (mb : Nat) :
    (analyze d mb).largest_files.length = min 20 (analyze d mb).total_files ∧
    (analyze d mb).largest_files.Pairwise tokensGE ∧
    ((analyze d mb).largest_files ++
        (List.insertionSort tokensGE
          (scanStats (mb * 1024 * 1024) (walkFiles "" d)).largest_files).drop 20).Perm
      (scanStats (mb * 1024 * 1024) (walkFiles "" d)).largest_files ∧
    ∀ x ∈ (analyze d mb).largest_files,
      ∀ y ∈ (List.insertionSort tokensGE
          (scanStats (mb * 1024 * 1024) (walkFiles "" d)).largest_files).drop 20,
        y.tokens ≤ x.tokens := by
  have hinv := scanStats_inv (mb * 1024 * 1024) (walkFiles "" d)
  have hsorted := List.sorted_insertionSort tokensGE
    (scanStats (mb * 1024 * 1024) (walkFiles "" d)).largest_files
  have hperm := List.perm_insertionSort tokensGE
    (scanStats (mb * 1024 * 1024) (walkFiles "" d)).largest_files
  have hsplit := List.take_append_drop 20 (List.insertionSort tokensGE
    (scanStats (mb * 1024 * 1024) (walkFiles "" d)).largest_files)
  have hcross := (List.pairwise_append.mp (by rw [hsplit]; exact hsorted)).2.2
  refine ⟨?_, ?_, ?_, ?_⟩
  · show ((List.insertionSort tokensGE _).take 20).length = _
    rw [List.length_take, List.length_insertionSort, hinv.2.2.2]
    rfl
  · exact hsorted.sublist (List.take_sublist ..)
  · show ((List.insertionSort tokensGE _).take 20 ++ _).Perm _
    rw [hsplit]
    exact hperm
  · exact fun x hx y hy => hcross x hx y hy

